import Mathlib

/-!
Shallow embedding of the 2key-ratchet core: the symmetric ratchet
(`src/classes/sym_ratchet.ts`) and the EC public key identity class.
The cryptographic primitives (the `Secret` wrapper over WebCrypto) form
the external primitive-provider boundary of the spec and are modelled as
an abstract record of pure functions; the ratchet state mutation of the
source is made explicit by threading the state through each operation.
-/

/-- ArrayBuffer contents, modelled as a list of bytes. -/
abbrev Bytes := List Nat

/-- The primitive provider boundary (`Secret` in the source): HMAC sign,
HMAC/AES key import, HKDF expansion and AES encrypt/decrypt.  `K` is the
type of opaque HMAC key handles, `A` the type of AES key handles. -/
structure Provider (K A : Type) where
  sign : K → Bytes → Bytes
  importHMAC : Bytes → K
  importAES : Bytes → A
  HKDF : Bytes → Nat → Option Bytes → Bytes → List Bytes
  encrypt : A → Bytes → Bytes → Bytes
  decrypt : A → Bytes → Bytes → Bytes

/-- `const CIPHER_KEY_KDF_INPUT = new Uint8Array([1]).buffer`. -/
def CIPHER_KEY_KDF_INPUT : Bytes := [1]

/-- `const ROOT_KEY_KDF_INPUT = new Uint8Array([2]).buffer`. -/
def ROOT_KEY_KDF_INPUT : Bytes := [2]

/-- Modelled from the spec: `INFO_MESSAGE_KEYS` is imported from
`./const`, which is not among the sources; the spec fixes it as the
fixed protocol "message keys" HKDF context label. -/
def INFO_MESSAGE_KEYS : Bytes := (String.toList "message keys").map Char.toNat

/-- Result record of `calculateKey` (`SymmetricKDFResult` in the source). -/
structure SymmetricKDFResult (K : Type) where
  rootKey : K
  cipher : Bytes

/-- Encrypt/decrypt result for symmetric ratchets (`CipherMessage`). -/
structure CipherMessage (K : Type) where
  cipherText : Bytes
  hmacKey : K

/-- State of the abstract class `SymmetricRatchet`: `counter` and `rootKey`. -/
structure SymmetricRatchet (K : Type) where
  counter : Nat
  rootKey : K

/-- `constructor(rootKey)`: `counter` starts at 0 (field initializer). -/
def SymmetricRatchet.mkRatchet {K : Type} (rootKey : K) : SymmetricRatchet K :=
  { counter := 0, rootKey := rootKey }

variable {K A : Type}

/-- `SymmetricRatchet.calculateKey`: KDF_CK — the cipher key is the HMAC
signature of the 1-byte tag `0x01`, the next root key the imported HMAC
signature of the 1-byte tag `0x02`. -/
def SymmetricRatchet.calculateKey (P : Provider K A) (rootKey : K) :
    SymmetricKDFResult K :=
  let cipherKeyBytes := P.sign rootKey CIPHER_KEY_KDF_INPUT
  let nextRootKeyBytes := P.sign rootKey ROOT_KEY_KDF_INPUT
  { rootKey := P.importHMAC nextRootKeyBytes, cipher := cipherKeyBytes }

/-- `SymmetricRatchet.click`: move to the next ratchet step.  Returns the
cipher key together with the updated state (`this.rootKey = res.rootKey;
this.counter++`). -/
def SymmetricRatchet.click (P : Provider K A) (s : SymmetricRatchet K) :
    Bytes × SymmetricRatchet K :=
  let res := SymmetricRatchet.calculateKey P s.rootKey
  (res.cipher, { counter := s.counter + 1, rootKey := res.rootKey })

/-- Lines 108–111 of `SendingRatchet.encrypt`: expand a cipher key via
`Secret.HKDF(cipherKey, 3, void 0, INFO_MESSAGE_KEYS)` into the AES key
(`keys[0]`), the HMAC key (`keys[1]`) and the IV (`keys[2].slice(0, 16)`). -/
def SendingRatchet.expandKeys (P : Provider K A) (cipherKey : Bytes) :
    A × K × Bytes :=
  let keys := P.HKDF cipherKey 3 none INFO_MESSAGE_KEYS
  let aesKey := P.importAES (keys.getD 0 [])
  let hmacKey := P.importHMAC (keys.getD 1 [])
  let iv := (keys.getD 2 []).take 16
  (aesKey, hmacKey, iv)

/-- Lines 130–133 of `ReceivingRatchet.decrypt`: the same HKDF expansion
of a cipher key, as written on the receiving side. -/
def ReceivingRatchet.expandKeys (P : Provider K A) (cipherKey : Bytes) :
    A × K × Bytes :=
  let keys := P.HKDF cipherKey 3 none INFO_MESSAGE_KEYS
  let aesKey := P.importAES (keys.getD 0 [])
  let hmacKey := P.importHMAC (keys.getD 1 [])
  let iv := (keys.getD 2 []).take 16
  (aesKey, hmacKey, iv)

/-- `SendingRatchet.encrypt`: click once, expand the produced cipher key,
encrypt the message under the derived AES key and IV. -/
def SendingRatchet.encrypt (P : Provider K A) (s : SymmetricRatchet K)
    (message : Bytes) : CipherMessage K × SymmetricRatchet K :=
  let res := SymmetricRatchet.click P s
  let keys := SendingRatchet.expandKeys P res.1
  let cipherText := P.encrypt keys.1 message keys.2.2
  ({ cipherText := cipherText, hmacKey := keys.2.1 }, res.2)

/-- State of `ReceivingRatchet`: the inherited engine state plus the
skipped-key cache `keys` (initialized to `[]`). -/
structure ReceivingRatchet (K : Type) extends SymmetricRatchet K where
  keys : List Bytes

/-- Inherited `constructor(rootKey)` of `ReceivingRatchet`. -/
def ReceivingRatchet.mkReceiving {K : Type} (rootKey : K) : ReceivingRatchet K :=
  { toSymmetricRatchet := SymmetricRatchet.mkRatchet rootKey, keys := [] }

/-- The `while (this.counter <= counter)` loop of `ReceivingRatchet.getKey`:
click and push the produced cipher key until the engine counter passes the
requested one. -/
def ReceivingRatchet.getKeyLoop (P : Provider K A) (s : ReceivingRatchet K)
    (counter : Nat) : ReceivingRatchet K :=
  if h : s.counter ≤ counter then
    ReceivingRatchet.getKeyLoop P
      { toSymmetricRatchet := (SymmetricRatchet.click P s.toSymmetricRatchet).2,
        keys := s.keys ++ [(SymmetricRatchet.click P s.toSymmetricRatchet).1] }
      counter
  else s
termination_by counter + 1 - s.counter
decreasing_by
  simp [SymmetricRatchet.click, SymmetricRatchet.calculateKey]
  omega

/-- `ReceivingRatchet.getKey`: run the loop, then return `this.keys[counter]`
(together with the final state). -/
def ReceivingRatchet.getKey (P : Provider K A) (s : ReceivingRatchet K)
    (counter : Nat) : Bytes × ReceivingRatchet K :=
  let s1 := ReceivingRatchet.getKeyLoop P s counter
  (s1.keys.getD counter [], s1)

/-- `ReceivingRatchet.decrypt`: resolve the cipher key for `counter` via
`getKey`, expand it, decrypt the message. -/
def ReceivingRatchet.decrypt (P : Provider K A) (s : ReceivingRatchet K)
    (message : Bytes) (counter : Nat) : CipherMessage K × ReceivingRatchet K :=
  let res := ReceivingRatchet.getKey P s counter
  let keys := ReceivingRatchet.expandKeys P res.1
  let cipherText := P.decrypt keys.1 message keys.2.2
  ({ cipherText := cipherText, hmacKey := keys.2.1 }, res.2)

/-- The root key after `n` ratchet steps from seed `r`. -/
def rootIter (P : Provider K A) (r : K) : Nat → K
  | 0 => r
  | n + 1 => P.importHMAC (P.sign (rootIter P r n) ROOT_KEY_KDF_INPUT)

/-- The cipher key produced at step `n` of the chain seeded with `r`. -/
def cipherKeyAt (P : Provider K A) (r : K) (n : Nat) : Bytes :=
  P.sign (rootIter P r n) CIPHER_KEY_KDF_INPUT

/-- Engine state after a sequence of `encrypt` calls (state part only). -/
def encryptN (P : Provider K A) (s : SymmetricRatchet K) :
    List Bytes → SymmetricRatchet K
  | [] => s
  | m :: ms => encryptN P (SendingRatchet.encrypt P s m).2 ms

/-- Receiving-chain state after a sequence of `getKey` calls. -/
def runGetKeys (P : Provider K A) (s : ReceivingRatchet K) :
    List Nat → ReceivingRatchet K
  | [] => s
  | c :: cs => runGetKeys P (ReceivingRatchet.getKey P s c).2 cs

/-- The canonical receiving-chain state after `N` forward steps from seed
`r`: counter `N`, root key `rootIter r N`, cache holding the cipher keys
of steps `0, …, N-1`. -/
def canonicalRecv (P : Provider K A) (r : K) (N : Nat) : ReceivingRatchet K :=
  { toSymmetricRatchet := { counter := N, rootKey := rootIter P r N },
    keys := (List.range N).map (cipherKeyAt P r) }

/-- A concrete executable provider used to exercise the definitions on
closed inputs.  Its `decrypt` inverts its `encrypt` for every key and IV. -/
def listProvider : Provider Bytes Bytes where
  sign := fun k d => k ++ d
  importHMAC := fun b => b
  importAES := fun b => b
  HKDF := fun ck n _ info => (List.range n).map fun i => i :: (ck ++ info)
  encrypt := fun _ m _ => m.map (· + 1)
  decrypt := fun _ c _ => c.map (· - 1)

/-- Modelled from the spec: a provider-native EC key handle (WebCrypto
`CryptoKey`).  The provider boundary `exportKeyCoordinates` is modelled by
the handle carrying its affine coordinate bytes (the base64url-decoded
`jwk.x` / `jwk.y` values); `algorithmName` is `algorithm.name`. -/
structure CryptoKey where
  algorithmName : String
  type : String
  jwkX : Bytes
  jwkY : Bytes

/-- The digest primitive consumed by `thumbprint` (`Secret.digest`),
an opaque provider operation. -/
structure ECProvider where
  digest : String → Bytes → Bytes

/-- The lower-case hexadecimal digit character of a nibble value. -/
def hexDigit (n : Nat) : Char :=
  if n < 10 then Char.ofNat (48 + n) else Char.ofNat (87 + n)

/-- Modelled from the spec: `Convert.ToHex` from the utils module — the
hex encoding of a byte buffer. -/
def Convert.ToHex (b : Bytes) : String :=
  String.join (b.map fun x => String.mk [hexDigit (x / 16 % 16), hexDigit (x % 16)])

/-- ASCII uppercase of one character. -/
def upperChar (c : Char) : Char :=
  if c.isLower then Char.ofNat (c.toNat - 32) else c

/-- Modelled from the spec: JavaScript `String.prototype.toUpperCase`,
for the ASCII algorithm-name strings involved. -/
def toUpperCase (s : String) : String := String.mk (s.data.map upperChar)

/-- The two distinct errors thrown by `ECPublicKey.create`. -/
inductive ECError where
  | unsupportedAlgorithm
  | invalidKeyType
deriving DecidableEq

/-- The thrown `Error` messages of `ECPublicKey.create`. -/
def ECError.message : ECError → String
  | ECError.unsupportedAlgorithm => "Error: Unsupported asymmetric key algorithm."
  | ECError.invalidKeyType => "Error: Expected key type to be public but it was not."

/-- `ECKeyType` (`"ECDSA" | "ECDH"`). -/
inductive ECKeyType where
  | ECDSA
  | ECDH
deriving DecidableEq

/-- The algorithm-name string of an `ECKeyType`. -/
def ECKeyType.algName : ECKeyType → String
  | ECKeyType.ECDSA => "ECDSA"
  | ECKeyType.ECDH => "ECDH"

/-- The EC public key identity: thumbprint `id`, native handle `key`,
canonical serialization `serialized` (x-coordinate bytes followed by
y-coordinate bytes). -/
structure ECPublicKey where
  id : String
  key : CryptoKey
  serialized : Bytes

/-- `ECPublicKey.serialize`: pure accessor of the raw serialization. -/
def ECPublicKey.serialize (k : ECPublicKey) : Bytes := k.serialized

/-- `ECPublicKey.thumbprint`: hex-encoded SHA-1 digest of the
serialization. -/
def ECPublicKey.thumbprint (E : ECProvider) (k : ECPublicKey) : String :=
  Convert.ToHex (E.digest "SHA-1" (ECPublicKey.serialize k))

/-- `ECPublicKey.create`: reject a handle whose upper-cased algorithm name
is neither `"ECDH"` nor `"ECDSA"`, then reject a non-public handle; then
serialize the exported coordinates as `x ‖ y` and compute the id. -/
def ECPublicKey.create (E : ECProvider) (publicKey : CryptoKey) :
    Except ECError ECPublicKey :=
  let algName := toUpperCase publicKey.algorithmName
  if ¬ (algName = "ECDH" ∨ algName = "ECDSA") then
    Except.error ECError.unsupportedAlgorithm
  else if publicKey.type ≠ "public" then
    Except.error ECError.invalidKeyType
  else
    let res0 : ECPublicKey :=
      { id := "", key := publicKey,
        serialized := publicKey.jwkX ++ publicKey.jwkY }
    Except.ok { res0 with id := ECPublicKey.thumbprint E res0 }

/-- `ECPublicKey.importKey`: split the raw buffer into the x coordinate
(first 32 bytes, `bytes.slice(0, 32)`) and the y coordinate
(`bytes.slice(32)`), reconstruct a public native handle of the given kind
(the provider `importPublicKey` boundary, modelled from the spec), and
delegate to `create`. -/
def ECPublicKey.importKey (E : ECProvider) (bytes : Bytes) (type : ECKeyType) :
    Except ECError ECPublicKey :=
  let key : CryptoKey :=
    { algorithmName := ECKeyType.algName type, type := "public",
      jwkX := bytes.take 32, jwkY := bytes.drop 32 }
  ECPublicKey.create E key

/-- `ECPublicKey.isEqual`: the `other : any` argument is modelled as an
`Option ECPublicKey`, `none` standing for null/undefined and every value
failing the `instanceof` check.  Modelled from the spec: the `isEqual`
helper from the utils module compares the two serializations
byte-identically. -/
def ECPublicKey.isEqual (a : ECPublicKey) (other : Option ECPublicKey) : Bool :=
  match other with
  | none => false
  | some b => a.serialized == b.serialized

/-- The identity `importKey` successfully produces (see `importKey_ok`). -/
def mkImported (E : ECProvider) (bytes : Bytes) (type : ECKeyType) : ECPublicKey :=
  let key : CryptoKey :=
    { algorithmName := ECKeyType.algName type, type := "public",
      jwkX := bytes.take 32, jwkY := bytes.drop 32 }
  let res0 : ECPublicKey :=
    { id := "", key := key, serialized := key.jwkX ++ key.jwkY }
  { res0 with id := ECPublicKey.thumbprint E res0 }

/-- A concrete executable digest provider for closed-input checks. -/
def idECProvider : ECProvider where
  digest := fun _ b => b

/-- Unfolding of `click`: the returned cipher key and the updated state. -/
theorem click_eq (P : Provider K A) (s : SymmetricRatchet K) :
    SymmetricRatchet.click P s =
      (P.sign s.rootKey CIPHER_KEY_KDF_INPUT,
       { counter := s.counter + 1,
         rootKey := P.importHMAC (P.sign s.rootKey ROOT_KEY_KDF_INPUT) }) := rfl

/-- Iterating the root-key derivation commutes with one leading step. -/
theorem rootIter_shift (P : Provider K A) (r : K) (n : Nat) :
    rootIter P (P.importHMAC (P.sign r ROOT_KEY_KDF_INPUT)) n = rootIter P r (n + 1) := by
  induction n with
  | zero => rfl
  | succ n ih => simp [rootIter, ih]

/-- Cipher keys of the advanced chain are the later cipher keys of the
original chain. -/
theorem cipherKeyAt_shift (P : Provider K A) (r : K) (n : Nat) :
    cipherKeyAt P (P.importHMAC (P.sign r ROOT_KEY_KDF_INPUT)) n = cipherKeyAt P r (n + 1) := by
  simp [cipherKeyAt, rootIter_shift]

/-- Root-key iteration composes additively. -/
theorem rootIter_add (P : Provider K A) (r : K) (a b : Nat) :
    rootIter P (rootIter P r a) b = rootIter P r (a + b) := by
  induction b with
  | zero => rfl
  | succ b ih => simp [rootIter, ih]

/-- Cipher keys of a chain started `a` steps in. -/
theorem cipherKeyAt_add (P : Provider K A) (r : K) (a n : Nat) :
    cipherKeyAt P (rootIter P r a) n = cipherKeyAt P r (a + n) := by
  simp [cipherKeyAt, rootIter_add]

/-- One iteration of the `getKey` while-loop. -/
theorem getKeyLoop_step (P : Provider K A) (s : ReceivingRatchet K) (c : Nat)
    (h : s.counter ≤ c) :
    ReceivingRatchet.getKeyLoop P s c =
      ReceivingRatchet.getKeyLoop P
        { toSymmetricRatchet := (SymmetricRatchet.click P s.toSymmetricRatchet).2,
          keys := s.keys ++ [(SymmetricRatchet.click P s.toSymmetricRatchet).1] } c := by
  rw [ReceivingRatchet.getKeyLoop]
  simp [h]

/-- The `getKey` while-loop does nothing when the engine counter is already
past the requested one. -/
theorem getKeyLoop_done (P : Provider K A) (s : ReceivingRatchet K) (c : Nat)
    (h : ¬ s.counter ≤ c) :
    ReceivingRatchet.getKeyLoop P s c = s := by
  rw [ReceivingRatchet.getKeyLoop]
  simp [h]

/-- Prepending the current step's cipher key to the shifted chain's keys
yields the original chain's keys. -/
theorem cons_map_range (P : Provider K A) (r : K) (k : Nat) :
    P.sign r CIPHER_KEY_KDF_INPUT ::
      (List.range k).map (cipherKeyAt P (P.importHMAC (P.sign r ROOT_KEY_KDF_INPUT))) =
    (List.range (k + 1)).map (cipherKeyAt P r) := by
  rw [List.range_succ_eq_map, List.map_cons, List.map_map]
  congr 1
  exact List.map_congr_left fun n _ => cipherKeyAt_shift P r n

/-- The `getKey` while-loop, run to completion from a state whose counter
does not yet exceed the requested one: it advances the engine to counter
`c + 1`, iterating the root key, and appends the cipher keys of the
intermediate steps to the cache in order. -/
theorem getKeyLoop_run (P : Provider K A) (c : Nat) :
    ∀ (fuel : Nat) (s : ReceivingRatchet K), c + 1 - s.counter ≤ fuel →
      s.counter ≤ c →
      ReceivingRatchet.getKeyLoop P s c =
        { toSymmetricRatchet :=
            { counter := c + 1,
              rootKey := rootIter P s.rootKey (c + 1 - s.counter) },
          keys := s.keys ++
            (List.range (c + 1 - s.counter)).map (cipherKeyAt P s.rootKey) } := by
  intro fuel
  induction fuel with
  | zero => intro s hf hc; omega
  | succ f ih =>
    intro s hf hc
    rw [getKeyLoop_step P s c hc, click_eq]
    by_cases h2 : s.counter + 1 ≤ c
    · rw [ih _ (by simp; omega) (by simp; omega)]
      have e1 : c + 1 - (s.counter + 1) = c - s.counter := by omega
      have e2 : c + 1 - s.counter = (c - s.counter) + 1 := by omega
      simp only [e1, e2, rootIter_shift, List.append_assoc, List.singleton_append,
        cons_map_range]
    · have hce : s.counter = c := by omega
      rw [getKeyLoop_done _ _ _ (by simp; omega)]
      have e2 : c + 1 - s.counter = 1 := by omega
      have e3 : s.counter + 1 = c + 1 := by omega
      have e4 : List.range 1 = [0] := by decide
      simp [e2, e3, e4, rootIter, cipherKeyAt]

/-- Fuel-free form of `getKeyLoop_run`. -/
theorem getKeyLoop_advance (P : Provider K A) (s : ReceivingRatchet K) (c : Nat)
    (hc : s.counter ≤ c) :
    ReceivingRatchet.getKeyLoop P s c =
      { toSymmetricRatchet :=
          { counter := c + 1,
            rootKey := rootIter P s.rootKey (c + 1 - s.counter) },
        keys := s.keys ++
          (List.range (c + 1 - s.counter)).map (cipherKeyAt P s.rootKey) } :=
  getKeyLoop_run P c (c + 1 - s.counter) s le_rfl hc

/-- Indexing a mapped range. -/
theorem map_range_getD (f : Nat → Bytes) (N c : Nat) (h : c < N) :
    ((List.range N).map f).getD c [] = f c := by
  rw [List.getD_eq_getElem _ _ (by simpa using h)]
  simp

/-- `getKey` when the requested counter is not behind the engine: the loop
advances to `c + 1`, appends the intermediate cipher keys, and the key
returned is the cipher key `c - s.counter` steps ahead of the current root. -/
theorem getKey_le (P : Provider K A) (s : ReceivingRatchet K) (c : Nat)
    (hc : s.counter ≤ c) (hk : s.keys.length = s.counter) :
    ReceivingRatchet.getKey P s c =
      (cipherKeyAt P s.rootKey (c - s.counter),
       { toSymmetricRatchet :=
           { counter := c + 1,
             rootKey := rootIter P s.rootKey (c + 1 - s.counter) },
         keys := s.keys ++
           (List.range (c + 1 - s.counter)).map (cipherKeyAt P s.rootKey) }) := by
  show ((ReceivingRatchet.getKeyLoop P s c).keys.getD c [],
        ReceivingRatchet.getKeyLoop P s c) = _
  rw [getKeyLoop_advance P s c hc]
  simp only [Prod.mk.injEq]
  refine ⟨?_, trivial⟩
  rw [List.getD_append_right _ _ _ _ (by omega), hk,
    map_range_getD _ _ _ (by omega)]

/-- `getKey` when the requested counter is strictly behind the engine: the
loop body never runs and the cached key at index `c` is returned. -/
theorem getKey_lt (P : Provider K A) (s : ReceivingRatchet K) (c : Nat)
    (h : c < s.counter) :
    ReceivingRatchet.getKey P s c = (s.keys.getD c [], s) := by
  show ((ReceivingRatchet.getKeyLoop P s c).keys.getD c [],
        ReceivingRatchet.getKeyLoop P s c) = _
  rw [getKeyLoop_done P s c (by omega)]

/-- `encrypt` updates the engine state exactly as `click` does. -/
theorem encrypt_state_eq (P : Provider K A) (s : SymmetricRatchet K) (m : Bytes) :
    (SendingRatchet.encrypt P s m).2 = (SymmetricRatchet.click P s).2 := rfl

/-- The engine state after a sequence of `encrypt` calls: the counter grows
by the number of messages and the root key is iterated as many times. -/
theorem encryptN_state (P : Provider K A) (ms : List Bytes) :
    ∀ s : SymmetricRatchet K,
      encryptN P s ms =
        { counter := s.counter + ms.length,
          rootKey := rootIter P s.rootKey ms.length } := by
  induction ms with
  | nil => intro s; rfl
  | cons m ms ih =>
    intro s
    rw [encryptN, encrypt_state_eq, click_eq, ih]
    simp only [List.length_cons, SymmetricRatchet.mk.injEq, rootIter_shift]
    exact ⟨by omega, trivial⟩

/-- Appending the shifted chain's first `k` cipher keys to the original
chain's first `N` gives the original chain's first `N + k`. -/
theorem map_range_append (P : Provider K A) (r : K) (N k : Nat) :
    (List.range N).map (cipherKeyAt P r) ++
      (List.range k).map (cipherKeyAt P (rootIter P r N)) =
    (List.range (N + k)).map (cipherKeyAt P r) := by
  rw [List.range_add, List.map_append, List.map_map]
  congr 1
  exact List.map_congr_left fun n _ => by
    rw [Function.comp_apply, cipherKeyAt_add]

/-- The key returned by `getKey` on a canonical state depends only on the
seed and the requested counter. -/
theorem getKey_canonical_fst (P : Provider K A) (r : K) (N c : Nat) :
    (ReceivingRatchet.getKey P (canonicalRecv P r N) c).1 = cipherKeyAt P r c := by
  rcases Nat.lt_or_ge c N with h | h
  · rw [getKey_lt P _ c (by simpa [canonicalRecv] using h)]
    show ((List.range N).map (cipherKeyAt P r)).getD c [] = _
    exact map_range_getD _ _ _ h
  · have h1 : (canonicalRecv P r N).counter ≤ c := by simpa [canonicalRecv] using h
    have h2 : (canonicalRecv P r N).keys.length = (canonicalRecv P r N).counter := by
      simp [canonicalRecv]
    rw [getKey_le P _ c h1 h2]
    show cipherKeyAt P (rootIter P r N) (c - N) = _
    rw [cipherKeyAt_add]
    congr 1
    omega

/-- `getKey` maps canonical states to canonical states. -/
theorem getKey_canonical_snd (P : Provider K A) (r : K) (N c : Nat) :
    (ReceivingRatchet.getKey P (canonicalRecv P r N) c).2 =
      canonicalRecv P r (max N (c + 1)) := by
  rcases Nat.lt_or_ge c N with h | h
  · rw [getKey_lt P _ c (by simpa [canonicalRecv] using h)]
    have e : max N (c + 1) = N := Nat.max_eq_left (by omega)
    rw [e]
  · have h1 : (canonicalRecv P r N).counter ≤ c := by simpa [canonicalRecv] using h
    have h2 : (canonicalRecv P r N).keys.length = (canonicalRecv P r N).counter := by
      simp [canonicalRecv]
    rw [getKey_le P _ c h1 h2]
    have e : max N (c + 1) = c + 1 := Nat.max_eq_right (by omega)
    rw [e]
    show ({ toSymmetricRatchet :=
              { counter := c + 1, rootKey := rootIter P (rootIter P r N) (c + 1 - N) },
            keys := (List.range N).map (cipherKeyAt P r) ++
              (List.range (c + 1 - N)).map (cipherKeyAt P (rootIter P r N)) } :
          ReceivingRatchet K) = _
    rw [map_range_append, rootIter_add]
    have e2 : N + (c + 1 - N) = c + 1 := by omega
    rw [e2]
    rfl

/-- Any sequence of `getKey` calls keeps a canonical state canonical. -/
theorem runGetKeys_canonical (P : Provider K A) (r : K) (cs : List Nat) :
    ∀ N, ∃ M, runGetKeys P (canonicalRecv P r N) cs = canonicalRecv P r M := by
  induction cs with
  | nil => intro N; exact ⟨N, rfl⟩
  | cons c cs ih =>
    intro N
    rw [runGetKeys, getKey_canonical_snd]
    exact ih _

/-- A fresh receiving chain is the canonical state at position 0. -/
theorem mkReceiving_eq_canonical (P : Provider K A) (r : K) :
    ReceivingRatchet.mkReceiving r = canonicalRecv P r 0 := rfl

/-- The counter after `getKey`: `max` of the old counter and `c + 1`. -/
theorem getKey_counter (P : Provider K A) (s : ReceivingRatchet K) (c : Nat) :
    (ReceivingRatchet.getKey P s c).2.counter = max s.counter (c + 1) := by
  rcases le_or_lt s.counter c with h | h
  · show (ReceivingRatchet.getKeyLoop P s c).counter = _
    rw [getKeyLoop_advance P s c h]
    show c + 1 = max s.counter (c + 1)
    exact (Nat.max_eq_right (by omega)).symm
  · show (ReceivingRatchet.getKeyLoop P s c).counter = _
    rw [getKeyLoop_done P s c (by omega)]
    exact (Nat.max_eq_left (by omega)).symm

/-- `decrypt` updates the receiving-chain state exactly as `getKey` does. -/
theorem decrypt_state_eq (P : Provider K A) (s : ReceivingRatchet K)
    (m : Bytes) (c : Nat) :
    (ReceivingRatchet.decrypt P s m c).2 = (ReceivingRatchet.getKey P s c).2 := rfl

/-- C2: one `click` on engine state `(rootKey r, counter n)` returns
`sign(r, 0x01)` as the cipher key, replaces the root key with
`importHMAC(sign(r, 0x02))` and sets the counter to `n + 1`; the engine
state consists of exactly these two fields, so nothing else is touched. -/
theorem C2_click_derivations_and_effect (P : Provider K A)
    (s : SymmetricRatchet K) :
    SymmetricRatchet.click P s =
      (P.sign s.rootKey [1],
       { counter := s.counter + 1,
         rootKey := P.importHMAC (P.sign s.rootKey [2]) }) ∧
    CIPHER_KEY_KDF_INPUT = [1] ∧ ROOT_KEY_KDF_INPUT = [2] :=
  ⟨rfl, rfl, rfl⟩

/-- C5: the counter starts at 0 in both chain constructors; `click` and
`encrypt` increment it by exactly 1; `getKey` and `decrypt` move it to
`max(counter, c + 1)` — a unit step per loop iteration — and never below
its previous value. -/
theorem C5_counter_forward_only (P : Provider K A) (r : K) :
    (SymmetricRatchet.mkRatchet r).counter = 0 ∧
    (ReceivingRatchet.mkReceiving r).counter = 0 ∧
    (∀ s : SymmetricRatchet K,
      (SymmetricRatchet.click P s).2.counter = s.counter + 1) ∧
    (∀ (s : SymmetricRatchet K) (m : Bytes),
      (SendingRatchet.encrypt P s m).2.counter = s.counter + 1) ∧
    (∀ (s : ReceivingRatchet K) (c : Nat),
      (ReceivingRatchet.getKey P s c).2.counter = max s.counter (c + 1)) ∧
    (∀ (s : ReceivingRatchet K) (c : Nat),
      s.counter ≤ (ReceivingRatchet.getKey P s c).2.counter) ∧
    (∀ (s : ReceivingRatchet K) (m : Bytes) (c : Nat),
      (ReceivingRatchet.decrypt P s m c).2.counter = max s.counter (c + 1)) := by
  refine ⟨rfl, rfl, fun s => rfl, fun s m => rfl, getKey_counter P, ?_, ?_⟩
  · intro s c
    rw [getKey_counter P s c]
    omega
  · intro s m c
    rw [decrypt_state_eq, getKey_counter P s c]

/-- C6: the receiving side's expansion of a cipher key into AES key, HMAC
key and IV is extensionally the sending side's expansion, and both are the
HKDF expansion with 3 outputs, no salt and the message-keys info label,
taking the AES key from output 0, the HMAC key from output 1 and the IV as
the first 16 bytes of output 2. -/
theorem C6_expansion_identical (P : Provider K A) :
    (∀ ck : Bytes,
      SendingRatchet.expandKeys P ck = ReceivingRatchet.expandKeys P ck) ∧
    (∀ ck : Bytes,
      ReceivingRatchet.expandKeys P ck =
        (P.importAES ((P.HKDF ck 3 none INFO_MESSAGE_KEYS).getD 0 []),
         P.importHMAC ((P.HKDF ck 3 none INFO_MESSAGE_KEYS).getD 1 []),
         ((P.HKDF ck 3 none INFO_MESSAGE_KEYS).getD 2 []).take 16)) :=
  ⟨fun ck => rfl, fun ck => rfl⟩

/-- C10: a `getKey` (and hence `decrypt`) call whose requested counter is
strictly below the engine counter returns the previously cached key at
that index and leaves the entire receiving-chain state — root key, counter
and cache — unchanged. -/
theorem C10_stale_counter_frame (P : Provider K A) (s : ReceivingRatchet K)
    (c : Nat) (m : Bytes) (hlt : c < s.counter) :
    ReceivingRatchet.getKey P s c = (s.keys.getD c [], s) ∧
    (ReceivingRatchet.decrypt P s m c).2 = s := by
  refine ⟨getKey_lt P s c hlt, ?_⟩
  rw [decrypt_state_eq, getKey_lt P s c hlt]

/-- C3: from a receiving state whose cache length equals its counter, with
counter ≤ c, `getKey c` clicks once per loop iteration while the counter
is ≤ c, appending each produced cipher key to the cache; the final counter
is `c + 1`, the cache has `c + 1` entries, and the returned key is the
cache entry at index `c` — the cipher key of step `c`, i.e. `c - counter`
steps ahead of the current root key. -/
theorem C3_getKey_fills_and_returns (P : Provider K A) (s : ReceivingRatchet K)
    (c : Nat) (hk : s.keys.length = s.counter) (hc : s.counter ≤ c) :
    ReceivingRatchet.getKey P s c =
      (cipherKeyAt P s.rootKey (c - s.counter),
       { toSymmetricRatchet :=
           { counter := c + 1,
             rootKey := rootIter P s.rootKey (c + 1 - s.counter) },
         keys := s.keys ++
           (List.range (c + 1 - s.counter)).map (cipherKeyAt P s.rootKey) }) ∧
    (ReceivingRatchet.getKey P s c).2.counter = c + 1 ∧
    (ReceivingRatchet.getKey P s c).2.keys.length = c + 1 ∧
    (ReceivingRatchet.getKey P s c).1 =
      (ReceivingRatchet.getKey P s c).2.keys.getD c [] := by
  have h := getKey_le P s c hc hk
  refine ⟨h, ?_, ?_, rfl⟩
  · rw [h]
  · rw [h]
    simp [hk]
    omega

/-- C3 witness: a fresh receiving chain, requested counter 2. -/
theorem C3_witness :
    (ReceivingRatchet.mkReceiving ([0] : Bytes)).keys.length =
        (ReceivingRatchet.mkReceiving ([0] : Bytes)).counter ∧
    (ReceivingRatchet.mkReceiving ([0] : Bytes)).counter ≤ 2 ∧
    (ReceivingRatchet.getKey listProvider
        (ReceivingRatchet.mkReceiving ([0] : Bytes)) 2).2.counter = 3 := by
  have h1 : (ReceivingRatchet.mkReceiving ([0] : Bytes)).keys.length =
      (ReceivingRatchet.mkReceiving ([0] : Bytes)).counter := rfl
  have h2 : (ReceivingRatchet.mkReceiving ([0] : Bytes)).counter ≤ 2 := by decide
  exact ⟨h1, h2, (C3_getKey_fills_and_returns listProvider _ 2 h1 h2).2.1⟩

/-- C4: for any two permuted sequences of requested counters, processed
from identically seeded fresh receiving chains, a subsequent `getKey c`
returns the same key under both histories — the step-`c` cipher key of the
seed, independent of call order. -/
theorem C4_order_independent (P : Provider K A) (r : K) (cs1 cs2 : List Nat)
    (hperm : cs1.Perm cs2) (c : Nat) :
    (ReceivingRatchet.getKey P
        (runGetKeys P (ReceivingRatchet.mkReceiving r) cs1) c).1 =
      (ReceivingRatchet.getKey P
        (runGetKeys P (ReceivingRatchet.mkReceiving r) cs2) c).1 ∧
    (ReceivingRatchet.getKey P
        (runGetKeys P (ReceivingRatchet.mkReceiving r) cs1) c).1 =
      cipherKeyAt P r c := by
  have key : ∀ cs : List Nat,
      (ReceivingRatchet.getKey P
          (runGetKeys P (ReceivingRatchet.mkReceiving r) cs) c).1 =
        cipherKeyAt P r c := by
    intro cs
    rw [mkReceiving_eq_canonical P r]
    obtain ⟨M, hM⟩ := runGetKeys_canonical P r cs 0
    rw [hM, getKey_canonical_fst]
  exact ⟨(key cs1).trans (key cs2).symm, key cs1⟩

/-- C4 witness: `getKey 5` then `getKey 2` versus `getKey 2` then
`getKey 5` agree at index 2. -/
theorem C4_witness :
    ([5, 2] : List Nat).Perm [2, 5] ∧
    (ReceivingRatchet.getKey listProvider
        (runGetKeys listProvider (ReceivingRatchet.mkReceiving ([0] : Bytes)) [5, 2]) 2).1 =
      (ReceivingRatchet.getKey listProvider
        (runGetKeys listProvider (ReceivingRatchet.mkReceiving ([0] : Bytes)) [2, 5]) 2).1 := by
  have hp : ([5, 2] : List Nat).Perm [2, 5] := by decide
  exact ⟨hp, (C4_order_independent listProvider [0] [5, 2] [2, 5] hp 2).1⟩

/-- `encrypt` encrypts under the expansion of the clicked cipher key. -/
theorem encrypt_cipherText (P : Provider K A) (s : SymmetricRatchet K) (m : Bytes) :
    (SendingRatchet.encrypt P s m).1.cipherText =
      P.encrypt (SendingRatchet.expandKeys P (P.sign s.rootKey CIPHER_KEY_KDF_INPUT)).1 m
        (SendingRatchet.expandKeys P (P.sign s.rootKey CIPHER_KEY_KDF_INPUT)).2.2 := rfl

/-- `decrypt` decrypts under the expansion of the retrieved cipher key. -/
theorem decrypt_cipherText (P : Provider K A) (s : ReceivingRatchet K)
    (msg : Bytes) (c : Nat) :
    (ReceivingRatchet.decrypt P s msg c).1.cipherText =
      P.decrypt (ReceivingRatchet.expandKeys P (ReceivingRatchet.getKey P s c).1).1 msg
        (ReceivingRatchet.expandKeys P (ReceivingRatchet.getKey P s c).1).2.2 := rfl

/-- C1: seed a sending and a receiving chain with the same root key, let
the sender perform `k` prior encrypts (`k = ms.length`), then encrypt `m`;
decrypting the produced cipher-text at counter `k` on the receiving chain
returns a message whose `cipherText` is `m`, provided the provider's
decrypt inverts its encrypt for matching key and IV. -/
theorem C1_sender_receiver_agreement (P : Provider K A) (r : K) (m : Bytes)
    (ms : List Bytes)
    (hinv : ∀ (a : A) (msg iv : Bytes),
      P.decrypt a (P.encrypt a msg iv) iv = msg) :
    (ReceivingRatchet.decrypt P (ReceivingRatchet.mkReceiving r)
        (SendingRatchet.encrypt P (encryptN P (SymmetricRatchet.mkRatchet r) ms)
          m).1.cipherText
        ms.length).1.cipherText = m := by
  rw [decrypt_cipherText, encrypt_cipherText]
  have hrecv : (ReceivingRatchet.getKey P (ReceivingRatchet.mkReceiving r)
      ms.length).1 = cipherKeyAt P r ms.length := by
    rw [mkReceiving_eq_canonical P r, getKey_canonical_fst]
  rw [hrecv, encryptN_state]
  show P.decrypt (ReceivingRatchet.expandKeys P (cipherKeyAt P r ms.length)).1
      (P.encrypt (SendingRatchet.expandKeys P (cipherKeyAt P r ms.length)).1 m
        (SendingRatchet.expandKeys P (cipherKeyAt P r ms.length)).2.2)
      (SendingRatchet.expandKeys P (cipherKeyAt P r ms.length)).2.2 = m
  exact hinv _ _ _

/-- C1 witness: the concrete provider satisfies the inversion hypothesis
and round-trips a concrete message after one prior encrypt. -/
theorem C1_witness :
    (∀ (a : Bytes) (msg iv : Bytes),
      listProvider.decrypt a (listProvider.encrypt a msg iv) iv = msg) ∧
    (ReceivingRatchet.decrypt listProvider (ReceivingRatchet.mkReceiving [0])
        (SendingRatchet.encrypt listProvider
          (encryptN listProvider (SymmetricRatchet.mkRatchet [0]) [[1]])
          [3, 4]).1.cipherText
        ([[1]] : List Bytes).length).1.cipherText = [3, 4] := by
  have hinv : ∀ (a : Bytes) (msg iv : Bytes),
      listProvider.decrypt a (listProvider.encrypt a msg iv) iv = msg := by
    intro a msg iv
    show List.map (· - 1) (List.map (· + 1) msg) = msg
    rw [List.map_map]
    have hcomp : ((fun x : Nat => x - 1) ∘ fun x : Nat => x + 1) = id := by
      funext x
      simp
    rw [hcomp, List.map_id]
  exact ⟨hinv, C1_sender_receiver_agreement listProvider [0] [3, 4] [[1]] hinv⟩

/-- C7: `create` fails with the unsupported-algorithm error exactly when
the handle's upper-cased algorithm name is neither `"ECDH"` nor `"ECDSA"`,
and fails with the invalid-key-type error exactly when the algorithm is
supported but the handle is not a public key; a failing call produces an
`Except.error`, so no identity object is created and nothing else changes. -/
theorem C7_create_rejections (E : ECProvider) (h : CryptoKey) :
    (ECPublicKey.create E h = Except.error ECError.unsupportedAlgorithm ↔
      ¬ (toUpperCase h.algorithmName = "ECDH" ∨
         toUpperCase h.algorithmName = "ECDSA")) ∧
    (ECPublicKey.create E h = Except.error ECError.invalidKeyType ↔
      ((toUpperCase h.algorithmName = "ECDH" ∨
        toUpperCase h.algorithmName = "ECDSA") ∧
        h.type ≠ "public")) := by
  unfold ECPublicKey.create
  by_cases h1 : toUpperCase h.algorithmName = "ECDH" ∨
    toUpperCase h.algorithmName = "ECDSA"
  · by_cases h2 : h.type = "public"
    · simp [h1, h2]
    · simp [h1, h2]
  · simp [h1]

/-- C8: `isEqual` returns true exactly when the argument is an
`ECPublicKey` instance whose canonical serialization is byte-identical to
this one's, and the result depends only on the two serializations — never
on the native key handles or the identifiers. -/
theorem C8_isEqual_semantics (a : ECPublicKey) (v : Option ECPublicKey) :
    (ECPublicKey.isEqual a v = true ↔
      ∃ b : ECPublicKey, v = some b ∧ a.serialized = b.serialized) ∧
    (∀ (b : ECPublicKey) (k k2 : CryptoKey) (i i2 : String),
      ECPublicKey.isEqual { a with key := k, id := i }
          (some { b with key := k2, id := i2 }) =
        ECPublicKey.isEqual a (some b)) := by
  constructor
  · cases v with
    | none => simp [ECPublicKey.isEqual]
    | some b => simp [ECPublicKey.isEqual]
  · intro b k k2 i i2
    rfl

/-- `importKey` always succeeds: the reconstructed handle is public with a
supported algorithm name. -/
theorem importKey_ok (E : ECProvider) (bytes : Bytes) (t : ECKeyType) :
    ECPublicKey.importKey E bytes t = Except.ok (mkImported E bytes t) := by
  cases t <;>
  · simp only [ECPublicKey.importKey, ECPublicKey.create, ECKeyType.algName]
    rw [if_neg (by decide), if_neg (by decide)]
    rfl

/-- The serialization of an imported identity is the imported buffer. -/
theorem mkImported_serialized (E : ECProvider) (bytes : Bytes) (t : ECKeyType) :
    (mkImported E bytes t).serialized = bytes := by
  show bytes.take 32 ++ bytes.drop 32 = bytes
  exact List.take_append_drop 32 bytes

/-- C9: re-importing a serialized identity succeeds and yields an identity
`isEqual` to the original; identities imported from two buffers that
differ at some byte position are never `isEqual`. -/
theorem C9_roundtrip_and_separation (E : ECProvider) (t : ECKeyType)
    (k : ECPublicKey) (b1 b2 : Bytes) (i : Nat)
    (hl : b1.length = b2.length) (hi : i < b1.length)
    (hd : b1.getD i 0 ≠ b2.getD i 0) :
    ECPublicKey.importKey E (ECPublicKey.serialize k) t =
        Except.ok (mkImported E (ECPublicKey.serialize k) t) ∧
    ECPublicKey.isEqual (mkImported E (ECPublicKey.serialize k) t) (some k) = true ∧
    ECPublicKey.importKey E b1 t = Except.ok (mkImported E b1 t) ∧
    ECPublicKey.isEqual (mkImported E b1 t) (some (mkImported E b2 t)) = false := by
  refine ⟨importKey_ok E _ t, ?_, importKey_ok E b1 t, ?_⟩
  · show ((mkImported E (ECPublicKey.serialize k) t).serialized == k.serialized) = true
    rw [mkImported_serialized]
    show (k.serialized == k.serialized) = true
    simp
  · show ((mkImported E b1 t).serialized == (mkImported E b2 t).serialized) = false
    rw [mkImported_serialized, mkImported_serialized]
    have hne : b1 ≠ b2 := by
      intro he
      rw [he] at hd
      exact hd rfl
    simp [hne]

/-- C9 witness: buffers `[1, 3]` and `[2, 3]` differ at byte 0 and the
imported identities are not equal. -/
theorem C9_witness :
    ([1, 3] : Bytes).length = ([2, 3] : Bytes).length ∧
    (0 : Nat) < ([1, 3] : Bytes).length ∧
    ([1, 3] : Bytes).getD 0 0 ≠ ([2, 3] : Bytes).getD 0 0 ∧
    ECPublicKey.isEqual (mkImported idECProvider [1, 3] ECKeyType.ECDSA)
      (some (mkImported idECProvider [2, 3] ECKeyType.ECDSA)) = false := by
  refine ⟨rfl, by decide, by decide, ?_⟩
  exact (C9_roundtrip_and_separation idECProvider ECKeyType.ECDSA
    (mkImported idECProvider [1, 3] ECKeyType.ECDSA) [1, 3] [2, 3] 0
    rfl (by decide) (by decide)).2.2.2

/-- C10 witness: a chain at counter 1 with one cached key, asked for
counter 0, returns the cached key and is left unchanged. -/
theorem C10_witness :
    (0 : Nat) <
      ({ toSymmetricRatchet := { counter := 1, rootKey := [7] }, keys := [[9]] } :
        ReceivingRatchet Bytes).counter ∧
    ReceivingRatchet.getKey listProvider
        { toSymmetricRatchet := { counter := 1, rootKey := [7] }, keys := [[9]] } 0 =
      ([9], { toSymmetricRatchet := { counter := 1, rootKey := [7] }, keys := [[9]] }) := by
  have h : (0 : Nat) <
      ({ toSymmetricRatchet := { counter := 1, rootKey := [7] }, keys := [[9]] } :
        ReceivingRatchet Bytes).counter := by decide
  refine ⟨h, ?_⟩
  exact (C10_stale_counter_frame listProvider
    { toSymmetricRatchet := { counter := 1, rootKey := [7] }, keys := [[9]] } 0 [5] h).1
